import Mathlib

set_option autoImplicit false

/-!
Verification of the moonlander-gp genetic-programming engine.

Shallow embedding of the Rust sources (src/num.rs, src/genetic/fitness.rs,
src/population.rs, src/ast.rs, src/genetic/mutate.rs, src/genetic/crossover.rs,
src/genetic/select.rs, src/genetic/evolve.rs, src/random_pop.rs).

Modelling conventions:
- Number (Rust f32) is modeled as exact rationals together with a distinguished
  NaN element: the type Option Rat, where none is NaN. Rounding and infinities
  are abstracted; NaN propagation through addition and the IEEE comparison
  behaviour (every ordering comparison involving NaN is false, partial_cmp
  returns None) are modeled exactly.
- Rust panics (unwrap, out-of-bounds indexing, division by zero, the % 0
  operation) are modeled by Option-valued functions returning none.
- Heap identity of Rc/Box tree nodes (the raw-pointer comparison in
  ast.rs::same_node) is modeled by giving every tree node an explicit
  allocation address addr; Clone allocates a structurally equal copy at fresh
  addresses.
- Randomness is modeled by an explicit draw stream (Nat -> Nat) with a cursor,
  and trait calls that consume randomness opaquely (RandNode::rand,
  Mutatable::mutate, the selector callback) by oracle function parameters.
-/

namespace MLGP

/-- Number type of src/num.rs (f32): exact value or NaN (none). -/
abbrev Number := Option ℚ

/-- f32 addition: NaN propagates through addition. -/
def numAdd : Number → Number → Number
  | some x, some y => some (x + y)
  | _, _ => none

/-- f32 strict greater-than: any comparison involving NaN is false. -/
def numGt : Number → Number → Bool
  | some x, some y => decide (y < x)
  | _, _ => false

/-- Total comparison of two rationals by their numeric order. -/
def qcmp (x y : ℚ) : Ordering :=
  if x < y then .lt else if y < x then .gt else .eq

/-- f32 partial_cmp: none exactly when either side is NaN, otherwise the
numeric order. -/
def numPartialCmp : Number → Number → Option Ordering
  | some x, some y => some (qcmp x y)
  | _, _ => none

/-- f32 is_nan. -/
def isNaN (x : Number) : Bool := x.isNone

/-- partial_max of src/num.rs lines 7-16, instantiated at Number: a fold that
starts from None and replaces the candidate only when the new element compares
strictly greater. -/
def partial_max (l : List Number) : Option Number :=
  l.foldl (fun ret x =>
    match ret with
    | none => some x
    | some y => if numGt x y then some x else ret) none

/-- ScoreCard of src/genetic/fitness.rs: a tagged list of scores plus the
cached total (the Rust tuple struct fields .0 and .1). -/
structure ScoreCard where
  scores : List (String × Number)
  total : Number
deriving DecidableEq, Repr

/-- ScoreCard::new (fitness.rs lines 42-45): stores the scores and caches the
sum of the values as the total. -/
def ScoreCard.new (scores : List (String × Number)) : ScoreCard :=
  ⟨scores, (scores.map Prod.snd).foldl numAdd (some 0)⟩

/-- ScoreCard::total_score (fitness.rs lines 57-59). -/
def ScoreCard.total_score (c : ScoreCard) : Number := c.total

/-- Ord::cmp for ScoreCard (fitness.rs lines 81-89). The final
partial_cmp(..).unwrap() is modeled by staying in Option: none is a panic. -/
def ScoreCard.cmp (a b : ScoreCard) : Option Ordering :=
  if isNaN a.total && isNaN b.total then some .eq
  else if isNaN a.total then some .lt
  else if isNaN b.total then some .gt
  else numPartialCmp a.total b.total

/-- Comparison key: the order the ScoreCard comparison implements, as a total
function of the two cached totals. -/
def cmpKey : Number → Number → Ordering
  | none, none => .eq
  | none, some _ => .lt
  | some _, none => .gt
  | some x, some y => qcmp x y

/-- find_rec (fitness.rs lines 91-98) fused with the rec.1 += value update of
add_assign: add v to the first component named name; none when no component
matches (the increased = false path). -/
def find_rec_add (name : String) (v : Number) :
    List (String × Number) → Option (List (String × Number))
  | [] => none
  | (n, x) :: rest =>
    if n = name then some ((n, numAdd x v) :: rest)
    else (find_rec_add name v rest).map (fun l => (n, x) :: l)

/-- One iteration of the loop body of AddAssign::add_assign (fitness.rs lines
110-122): merge one component of the right-hand card into the accumulator and
add its value to the cached total. -/
def add_assign_step (acc : ScoreCard) (p : String × Number) : ScoreCard :=
  let scores2 :=
    match find_rec_add p.1 p.2 acc.scores with
    | some s => s
    | none => acc.scores ++ [p]
  ⟨scores2, numAdd acc.total p.2⟩

/-- ScoreCard + ScoreCard (fitness.rs lines 100-123): impl Add delegates to
AddAssign, which loops over the right-hand card's components. (The unrelated
helper method ScoreCard::add that appends raw scores is not this operator.) -/
def ScoreCard.addCard (a b : ScoreCard) : ScoreCard :=
  b.scores.foldl add_assign_step a

/-- Component names of a score list. -/
def namesOf (l : List (String × Number)) : List String := l.map Prod.fst

/-- Expected value of a by-name lookup after merging two cards. -/
def combineOpt : Option Number → Option Number → Option Number
  | some x, some y => some (numAdd x y)
  | some x, none => some x
  | none, o => o

/-- Population::best_score (population.rs lines 57-59) restricted to its data:
reduces the cards' cached totals with partial_max; the .unwrap() panic on an
empty population is the outer none. -/
def total_scores (cards : List ScoreCard) : List Number :=
  cards.map ScoreCard.total

def best_score (cards : List ScoreCard) : Option Number :=
  partial_max (total_scores cards)

/-- Maximum of an accumulator and the non-NaN entries of a list: the value
partial_max computes once a non-NaN candidate is installed. -/
def specMax (q : ℚ) : List Number → ℚ
  | [] => q
  | some r :: t => specMax (max q r) t
  | none :: t => specMax q t

theorem cmp_eq_cmpKey (a b : ScoreCard) :
    ScoreCard.cmp a b = some (cmpKey a.total b.total) := by
  rcases ha : a.total with _ | x <;> rcases hb : b.total with _ | y <;>
    simp [ScoreCard.cmp, isNaN, cmpKey, numPartialCmp, ha, hb]

theorem qcmp_self (x : ℚ) : qcmp x x = .eq := by
  simp [qcmp]

theorem qcmp_swap (x y : ℚ) : qcmp y x = (qcmp x y).swap := by
  rcases lt_trichotomy x y with h | h | h
  · simp [qcmp, h, lt_asymm h, Ordering.swap]
  · subst h; simp [qcmp, lt_irrefl, Ordering.swap]
  · simp [qcmp, h, lt_asymm h, Ordering.swap]

theorem qcmp_lt_iff (x y : ℚ) : qcmp x y = .lt ↔ x < y := by
  rcases lt_trichotomy x y with h | h | h
  · simp [qcmp, h]
  · subst h; simp [qcmp, lt_irrefl]
  · simp [qcmp, h, lt_asymm h]

theorem qcmp_eq_iff (x y : ℚ) : qcmp x y = .eq ↔ x = y := by
  rcases lt_trichotomy x y with h | h | h
  · simp [qcmp, h, ne_of_lt h]
  · subst h; simp [qcmp, lt_irrefl]
  · simp [qcmp, h, lt_asymm h, ne_of_gt h]

theorem cmpKey_swap (x y : Number) : cmpKey y x = (cmpKey x y).swap := by
  rcases x with _ | x <;> rcases y with _ | y
  · rfl
  · rfl
  · rfl
  · exact qcmp_swap x y

theorem cmpKey_lt_trans (x y z : Number) (h1 : cmpKey x y = .lt)
    (h2 : cmpKey y z = .lt) : cmpKey x z = .lt := by
  rcases x with _ | x <;> rcases y with _ | y <;> rcases z with _ | z <;>
    simp_all [cmpKey, qcmp_lt_iff]
  exact lt_trans h1 h2

theorem cmpKey_eq_iff (x y : Number) : cmpKey x y = .eq ↔ x = y := by
  rcases x with _ | x <;> rcases y with _ | y <;>
    simp [cmpKey, qcmp_eq_iff]

/-- C5: ScoreCard comparison is a total order on the cached total: two NaN
totals compare equal, a NaN total compares strictly below any non-NaN total,
two non-NaN totals compare by their numeric order, and the comparison never
panics (never returns none); it is reflexive, antisymmetric under swap, and
transitive. -/
theorem scorecard_cmp_total_order :
    (∀ a b : ScoreCard, (ScoreCard.cmp a b).isSome) ∧
    (∀ a b : ScoreCard, isNaN a.total = true → isNaN b.total = true →
      ScoreCard.cmp a b = some .eq) ∧
    (∀ a b : ScoreCard, isNaN a.total = true → isNaN b.total = false →
      ScoreCard.cmp a b = some .lt) ∧
    (∀ a b : ScoreCard, isNaN a.total = false → isNaN b.total = true →
      ScoreCard.cmp a b = some .gt) ∧
    (∀ (a b : ScoreCard) (x y : ℚ), a.total = some x → b.total = some y →
      ScoreCard.cmp a b = some (qcmp x y)) ∧
    (∀ a : ScoreCard, ScoreCard.cmp a a = some .eq) ∧
    (∀ (a b : ScoreCard) (o : Ordering), ScoreCard.cmp a b = some o →
      ScoreCard.cmp b a = some o.swap) ∧
    (∀ a b c : ScoreCard, ScoreCard.cmp a b = some .lt →
      ScoreCard.cmp b c = some .lt → ScoreCard.cmp a c = some .lt) ∧
    (∀ a b c : ScoreCard, ScoreCard.cmp a b = some .eq →
      ScoreCard.cmp b c = some .eq → ScoreCard.cmp a c = some .eq) := by
  refine ⟨?_, ?_, ?_, ?_, ?_, ?_, ?_, ?_, ?_⟩
  · intro a b; rw [cmp_eq_cmpKey]; rfl
  · intro a b ha hb
    rcases h1 : a.total with _ | x <;> rcases h2 : b.total with _ | y <;>
      simp_all [isNaN, cmp_eq_cmpKey, cmpKey]
  · intro a b ha hb
    rcases h1 : a.total with _ | x <;> rcases h2 : b.total with _ | y <;>
      simp_all [isNaN, cmp_eq_cmpKey, cmpKey]
  · intro a b ha hb
    rcases h1 : a.total with _ | x <;> rcases h2 : b.total with _ | y <;>
      simp_all [isNaN, cmp_eq_cmpKey, cmpKey]
  · intro a b x y hx hy
    rw [cmp_eq_cmpKey, hx, hy]; rfl
  · intro a
    rcases h : a.total with _ | x <;> simp [cmp_eq_cmpKey, h, cmpKey, qcmp_self]
  · intro a b o h
    rw [cmp_eq_cmpKey] at h ⊢
    rw [cmpKey_swap]
    simp_all
  · intro a b c h1 h2
    rw [cmp_eq_cmpKey] at h1 h2 ⊢
    simp only [Option.some.injEq] at h1 h2
    simp [cmpKey_lt_trans _ _ _ h1 h2]
  · intro a b c h1 h2
    rw [cmp_eq_cmpKey] at h1 h2 ⊢
    simp only [Option.some.injEq] at h1 h2
    rw [cmpKey_eq_iff] at h1 h2
    simp [h1, h2, cmpKey_eq_iff]

/-- C5 witness: a NaN total ranks strictly below a real total at concrete
cards. -/
theorem scorecard_cmp_total_order_witness :
    ScoreCard.cmp (ScoreCard.new [("x", none)]) (ScoreCard.new [("x", some 2)])
      = some .lt :=
  scorecard_cmp_total_order.2.2.1 _ _ (by simp [ScoreCard.new, isNaN, numAdd])
    (by simp [ScoreCard.new, isNaN, numAdd])

theorem partial_max_from_some (l : List Number) : ∀ q : ℚ,
    l.foldl (fun ret x =>
      match ret with
      | none => some x
      | some y => if numGt x y then some x else ret) (some (some q))
      = some (some (specMax q l)) := by
  induction l with
  | nil => intro q; rfl
  | cons x t ih =>
    intro q
    rcases x with _ | r
    · simpa [numGt, specMax] using ih q
    · by_cases h : q < r
      · have hmax : max q r = r := max_eq_right (le_of_lt h)
        simpa [numGt, h, specMax, hmax] using ih r
      · have hmax : max q r = q := max_eq_left (not_lt.mp h)
        simpa [numGt, h, specMax, hmax] using ih q

theorem le_specMax (l : List Number) : ∀ q : ℚ, q ≤ specMax q l := by
  induction l with
  | nil => intro q; exact le_refl q
  | cons x t ih =>
    intro q
    rcases x with _ | r
    · exact ih q
    · exact le_trans (le_max_left q r) (ih (max q r))

theorem specMax_mem (l : List Number) : ∀ q : ℚ,
    specMax q l = q ∨ some (specMax q l) ∈ l := by
  induction l with
  | nil => intro q; exact Or.inl rfl
  | cons x t ih =>
    intro q
    rcases x with _ | r
    · rcases ih q with h | h
      · exact Or.inl h
      · exact Or.inr (List.mem_cons_of_mem _ h)
    · rcases ih (max q r) with h | h
      · rcases max_choice q r with hm | hm
        · refine Or.inl ?_
          show specMax (max q r) t = q
          rw [h, hm]
        · refine Or.inr ?_
          show some (specMax (max q r) t) ∈ some r :: t
          rw [h, hm]
          exact List.mem_cons_self _ _
      · exact Or.inr (List.mem_cons_of_mem _ h)

theorem mem_le_specMax (l : List Number) : ∀ (q x : ℚ), some x ∈ l →
    x ≤ specMax q l := by
  induction l with
  | nil => intro q x h; simp at h
  | cons y t ih =>
    intro q x h
    rcases y with _ | r
    · rcases List.mem_cons.mp h with h1 | h1
      · exact absurd h1 (by simp)
      · exact ih q x h1
    · rcases List.mem_cons.mp h with h1 | h1
      · have hxr : x = r := by simpa using h1
        subst hxr
        exact le_trans (le_max_right q x) (le_specMax t (max q x))
      · exact ih (max q r) x h1

/-- C1 counterexample: for the totals NaN, 2, 4 in this order best_score is
NaN, not 4: partial_max is order-sensitive, a NaN that arrives first is the
candidate no later element can beat, so the claim's for-any-order statement
fails. -/
theorem best_score_nan_first_cx :
    best_score [ScoreCard.new [("t", none)], ScoreCard.new [("t", some 2)],
      ScoreCard.new [("t", some 4)]] = some none ∧
    (some none : Option Number) ≠ some (some (4 : ℚ)) := by
  constructor
  · rfl
  · simp

/-- C1 amended: when the first total is non-NaN (in particular whenever no
total is NaN, or the NaN totals all come after a real one), best_score
returns the maximum of the non-NaN totals and a NaN total never wins;
for the totals 2, 4, NaN in the spec's order it returns 4. -/
theorem best_score_max_of_nonnan (c : ScoreCard) (rest : List ScoreCard)
    (q : ℚ) (h : c.total = some q) :
    ∃ m : ℚ, best_score (c :: rest) = some (some m) ∧
      some m ∈ total_scores (c :: rest) ∧
      ∀ x : ℚ, some x ∈ total_scores (c :: rest) → x ≤ m := by
  refine ⟨specMax q (total_scores rest), ?_, ?_, ?_⟩
  · have : best_score (c :: rest)
        = (total_scores rest).foldl (fun ret x =>
            match ret with
            | none => some x
            | some y => if numGt x y then some x else ret) (some c.total) := by
      simp [best_score, partial_max, total_scores]
    rw [this, h]
    exact partial_max_from_some (total_scores rest) q
  · have hcons : total_scores (c :: rest) = c.total :: total_scores rest := rfl
    rcases specMax_mem (total_scores rest) q with hm | hm
    · rw [hcons, hm, ← h]; exact List.mem_cons_self _ _
    · rw [hcons]; exact List.mem_cons_of_mem _ hm
  · intro x hx
    have hcons : total_scores (c :: rest) = c.total :: total_scores rest := rfl
    rw [hcons] at hx
    rcases List.mem_cons.mp hx with hx | hx
    · rw [h] at hx
      have hxq : x = q := Option.some.inj hx
      subst hxq
      exact le_specMax (total_scores rest) x
    · exact mem_le_specMax (total_scores rest) q x hx

/-- C1 witness: with totals 2, 4, NaN (the spec's example order) the theorem
applies and the returned maximum is a member bounding all non-NaN totals. -/
theorem best_score_max_of_nonnan_witness :
    ∃ m : ℚ, best_score [ScoreCard.new [("t", some 2)],
        ScoreCard.new [("t", some 4)], ScoreCard.new [("t", none)]]
        = some (some m) ∧
      some m ∈ total_scores [ScoreCard.new [("t", some 2)],
        ScoreCard.new [("t", some 4)], ScoreCard.new [("t", none)]] ∧
      ∀ x : ℚ, some x ∈ total_scores [ScoreCard.new [("t", some 2)],
        ScoreCard.new [("t", some 4)], ScoreCard.new [("t", none)]] → x ≤ m :=
  best_score_max_of_nonnan _ _ 2 (by simp [ScoreCard.new, numAdd])

theorem lookup_cons (n k : String) (v : Number) (t : List (String × Number)) :
    List.lookup n ((k, v) :: t) = if n = k then some v else List.lookup n t := by
  by_cases h : n = k
  · subst h; simp [List.lookup]
  · have hb : (n == k) = false := beq_eq_false_iff_ne.mpr h
    simp [List.lookup, hb, h]

theorem lookup_eq_none_iff (n : String) (l : List (String × Number)) :
    List.lookup n l = none ↔ n ∉ namesOf l := by
  induction l with
  | nil => simp [List.lookup, namesOf]
  | cons p t ih =>
    obtain ⟨k, v⟩ := p
    by_cases h : n = k <;> simp [lookup_cons, h, namesOf, ih]

theorem lookup_append (n : String) (l1 l2 : List (String × Number)) :
    List.lookup n (l1 ++ l2)
      = match List.lookup n l1 with
        | some x => some x
        | none => List.lookup n l2 := by
  induction l1 with
  | nil => simp [List.lookup]
  | cons p t ih =>
    obtain ⟨k, v⟩ := p
    by_cases h : n = k
    · simp [lookup_cons, h]
    · simpa [lookup_cons, h] using ih

theorem find_rec_add_none (n : String) (v : Number) (l : List (String × Number)) :
    find_rec_add n v l = none ↔ List.lookup n l = none := by
  induction l with
  | nil => simp [find_rec_add, List.lookup]
  | cons p t ih =>
    obtain ⟨k, x⟩ := p
    by_cases h : k = n
    · subst h; simp [find_rec_add, lookup_cons]
    · have h2 : n ≠ k := fun hnk => h hnk.symm
      simp [find_rec_add, lookup_cons, h, h2, Option.map_eq_none', ih]

theorem find_rec_add_spec (n : String) (v : Number) :
    ∀ (l l' : List (String × Number)), find_rec_add n v l = some l' →
      namesOf l' = namesOf l ∧
      (∀ x, List.lookup n l = some x → List.lookup n l' = some (numAdd x v)) ∧
      (∀ m, m ≠ n → List.lookup m l' = List.lookup m l) := by
  intro l
  induction l with
  | nil => intro l' h; simp [find_rec_add] at h
  | cons p t ih =>
    intro l' h
    obtain ⟨k, x⟩ := p
    by_cases hk : k = n
    · subst hk
      simp only [find_rec_add, if_true, eq_self_iff_true, Option.some.injEq] at h
      subst h
      refine ⟨by simp [namesOf], ?_, ?_⟩
      · intro y hy
        rw [lookup_cons, if_pos rfl] at hy ⊢
        rw [Option.some.inj hy]
      · intro m hm
        rw [lookup_cons, lookup_cons, if_neg hm, if_neg hm]
    · simp only [find_rec_add, if_neg hk] at h
      rcases ht : find_rec_add n v t with _ | t'
      · rw [ht] at h; simp at h
      · rw [ht] at h
        simp only [Option.map_some', Option.some.injEq] at h
        subst h
        obtain ⟨hn1, hn2, hn3⟩ := ih t' ht
        have hnk : n ≠ k := fun hnk => hk hnk.symm
        refine ⟨by simpa [namesOf] using hn1, ?_, ?_⟩
        · intro y hy
          rw [lookup_cons, if_neg hnk] at hy ⊢
          exact hn2 y hy
        · intro m hm
          by_cases hmk : m = k
          · rw [lookup_cons, lookup_cons, if_pos hmk, if_pos hmk]
          · rw [lookup_cons, lookup_cons, if_neg hmk, if_neg hmk]
            exact hn3 m hm

theorem add_assign_step_scores (acc : ScoreCard) (p : String × Number) :
    (add_assign_step acc p).scores
      = match find_rec_add p.1 p.2 acc.scores with
        | some s => s
        | none => acc.scores ++ [p] := rfl

theorem add_assign_step_total (acc : ScoreCard) (p : String × Number) :
    (add_assign_step acc p).total = numAdd acc.total p.2 := rfl

theorem namesOf_append (l1 l2 : List (String × Number)) :
    namesOf (l1 ++ l2) = namesOf l1 ++ namesOf l2 := by
  simp [namesOf]

theorem add_assign_step_lookup_ne (acc : ScoreCard) (p : String × Number)
    (m : String) (hm : m ≠ p.1) :
    List.lookup m (add_assign_step acc p).scores = List.lookup m acc.scores := by
  rcases h : find_rec_add p.1 p.2 acc.scores with _ | s
  · obtain ⟨k, v⟩ := p
    simp only [add_assign_step_scores, h]
    rw [lookup_append]
    rcases hl : List.lookup m acc.scores with _ | y
    · show List.lookup m [(k, v)] = none
      rw [lookup_cons, if_neg hm]
      rfl
    · rfl
  · simp only [add_assign_step_scores, h]
    exact (find_rec_add_spec p.1 p.2 acc.scores s h).2.2 m hm

theorem add_assign_step_lookup_eq (acc : ScoreCard) (p : String × Number) :
    List.lookup p.1 (add_assign_step acc p).scores
      = combineOpt (List.lookup p.1 acc.scores) (some p.2) := by
  rcases h : find_rec_add p.1 p.2 acc.scores with _ | s
  · have hnone : List.lookup p.1 acc.scores = none :=
      (find_rec_add_none p.1 p.2 acc.scores).mp h
    obtain ⟨k, v⟩ := p
    simp only [add_assign_step_scores, h]
    rw [lookup_append, hnone]
    show List.lookup k [(k, v)] = combineOpt none (some v)
    rw [lookup_cons, if_pos rfl]
    rfl
  · rcases hl : List.lookup p.1 acc.scores with _ | x
    · have h2 : find_rec_add p.1 p.2 acc.scores = none :=
        (find_rec_add_none p.1 p.2 acc.scores).mpr hl
      rw [h] at h2; exact Option.noConfusion h2
    · simp only [add_assign_step_scores, h]
      have hs := (find_rec_add_spec p.1 p.2 acc.scores s h).2.1 x hl
      rw [hs]
      rfl

theorem add_assign_step_names (acc : ScoreCard) (p : String × Number) :
    namesOf (add_assign_step acc p).scores
      = if p.1 ∈ namesOf acc.scores
        then namesOf acc.scores
        else namesOf acc.scores ++ [p.1] := by
  rcases h : find_rec_add p.1 p.2 acc.scores with _ | s
  · have hnone : p.1 ∉ namesOf acc.scores :=
      (lookup_eq_none_iff _ _).mp ((find_rec_add_none p.1 p.2 acc.scores).mp h)
    simp only [add_assign_step_scores, h]
    rw [namesOf_append, if_neg hnone]
    rfl
  · have hsome : p.1 ∈ namesOf acc.scores := by
      by_contra hmem
      have h2 := (lookup_eq_none_iff p.1 acc.scores).mpr hmem
      rw [← find_rec_add_none p.1 p.2 acc.scores] at h2
      rw [h] at h2; exact Option.noConfusion h2
    simp only [add_assign_step_scores, h]
    rw [(find_rec_add_spec p.1 p.2 acc.scores s h).1, if_pos hsome]

theorem numAdd_assoc (x y z : Number) :
    numAdd (numAdd x y) z = numAdd x (numAdd y z) := by
  rcases x with _ | x <;> rcases y with _ | y <;> rcases z with _ | z <;>
    simp [numAdd, add_assoc]

theorem numAdd_zero_left (x : Number) : numAdd (some 0) x = x := by
  rcases x with _ | x <;> simp [numAdd]

theorem foldl_numAdd_shift (l : List Number) : ∀ t : Number,
    l.foldl numAdd t = numAdd t (l.foldl numAdd (some 0)) := by
  induction l with
  | nil => intro t; rcases t with _ | x <;> simp [numAdd]
  | cons v r ih =>
    intro t
    show r.foldl numAdd (numAdd t v) = numAdd t (r.foldl numAdd (numAdd (some 0) v))
    rw [ih (numAdd t v), ih (numAdd (some 0) v), numAdd_zero_left, numAdd_assoc]

theorem foldl_step_total (bl : List (String × Number)) : ∀ acc : ScoreCard,
    (bl.foldl add_assign_step acc).total
      = (bl.map Prod.snd).foldl numAdd acc.total := by
  induction bl with
  | nil => intro acc; rfl
  | cons p t ih =>
    intro acc
    show (t.foldl add_assign_step (add_assign_step acc p)).total
      = (t.map Prod.snd).foldl numAdd (numAdd acc.total p.2)
    rw [ih (add_assign_step acc p), add_assign_step_total]

theorem foldl_step_lookup (bl : List (String × Number)) :
    (namesOf bl).Nodup → ∀ (acc : ScoreCard) (n : String),
      List.lookup n (bl.foldl add_assign_step acc).scores
        = combineOpt (List.lookup n acc.scores) (List.lookup n bl) := by
  induction bl with
  | nil =>
    intro _ acc n
    show List.lookup n acc.scores = combineOpt (List.lookup n acc.scores) none
    rcases List.lookup n acc.scores with _ | x <;> rfl
  | cons p t ih =>
    intro hb acc n
    obtain ⟨k, v⟩ := p
    have hds : k ∉ namesOf t ∧ (namesOf t).Nodup := by
      simpa [namesOf] using hb
    have step := ih hds.2 (add_assign_step acc (k, v)) n
    show List.lookup n (t.foldl add_assign_step (add_assign_step acc (k, v))).scores
      = combineOpt (List.lookup n acc.scores) (List.lookup n ((k, v) :: t))
    rw [step, lookup_cons]
    by_cases hn : n = k
    · subst hn
      have htn : List.lookup n t = none :=
        (lookup_eq_none_iff n t).mpr hds.1
      rw [htn, if_pos rfl, add_assign_step_lookup_eq acc (n, v)]
      rcases List.lookup n acc.scores with _ | x <;> rfl
    · rw [if_neg hn, add_assign_step_lookup_ne acc (k, v) n hn]

theorem foldl_step_names (bl : List (String × Number)) :
    (namesOf bl).Nodup → ∀ acc : ScoreCard,
      namesOf (bl.foldl add_assign_step acc).scores
        = namesOf acc.scores
          ++ (namesOf bl).filter (fun x => decide (x ∉ namesOf acc.scores)) := by
  induction bl with
  | nil => intro _ acc; simp [namesOf]
  | cons p t ih =>
    intro hb acc
    obtain ⟨k, v⟩ := p
    have hds : k ∉ namesOf t ∧ (namesOf t).Nodup := by
      simpa [namesOf] using hb
    have step := ih hds.2 (add_assign_step acc (k, v))
    show namesOf (t.foldl add_assign_step (add_assign_step acc (k, v))).scores
      = namesOf acc.scores
        ++ (namesOf ((k, v) :: t)).filter (fun x => decide (x ∉ namesOf acc.scores))
    rw [step, add_assign_step_names]
    have hlc : namesOf ((k, v) :: t) = k :: namesOf t := rfl
    by_cases hk : k ∈ namesOf acc.scores
    · rw [if_pos hk, hlc]
      have hfil : (k :: namesOf t).filter
            (fun x => decide (x ∉ namesOf acc.scores))
          = (namesOf t).filter (fun x => decide (x ∉ namesOf acc.scores)) := by
        simp [List.filter_cons, hk]
      rw [hfil]
    · rw [if_neg hk, hlc]
      have hfeq : (namesOf t).filter
            (fun x => decide (x ∉ namesOf acc.scores ++ [k]))
          = (namesOf t).filter (fun x => decide (x ∉ namesOf acc.scores)) := by
        refine List.filter_congr ?_
        intro x hx
        have hxk : x ≠ k := fun hxk => hds.1 (hxk ▸ hx)
        simp [hxk]
      have hfil : (k :: namesOf t).filter
            (fun x => decide (x ∉ namesOf acc.scores))
          = k :: (namesOf t).filter (fun x => decide (x ∉ namesOf acc.scores)) := by
        simp [List.filter_cons, hk]
      rw [hfeq, hfil, List.append_assoc]
      rfl

/-- C7: ScoreCard addition merges component-wise by name: a name in both cards
gets the sum of the two values, a name in exactly one keeps its value,
unmatched names of the right card are appended after the left card's names,
and the resulting cached total is the sum of the two cached totals; the two
concrete examples of the spec hold. Uniquely named components and a cached
total that is the sum of the components are data-model invariants of
ScoreCard, stated here as hypotheses. -/
theorem scorecard_add_merges (a b : ScoreCard)
    (_ha : (namesOf a.scores).Nodup) (hb : (namesOf b.scores).Nodup)
    (hbt : b.total = (b.scores.map Prod.snd).foldl numAdd (some 0)) :
    (ScoreCard.addCard a b).total = numAdd a.total b.total ∧
    (∀ n : String, List.lookup n (ScoreCard.addCard a b).scores
      = combineOpt (List.lookup n a.scores) (List.lookup n b.scores)) ∧
    namesOf (ScoreCard.addCard a b).scores
      = namesOf a.scores
        ++ (namesOf b.scores).filter (fun x => decide (x ∉ namesOf a.scores)) ∧
    ScoreCard.addCard (ScoreCard.new [("a", some 1)])
        (ScoreCard.new [("a", some 1)]) = ⟨[("a", some 2)], some 2⟩ ∧
    ScoreCard.addCard (ScoreCard.new [("a", some 1)])
        (ScoreCard.new [("b", some 1)])
      = ⟨[("a", some 1), ("b", some 1)], some 2⟩ := by
  refine ⟨?_, ?_, ?_, ?_, ?_⟩
  · rw [ScoreCard.addCard, foldl_step_total, foldl_numAdd_shift, hbt]
  · intro n
    exact foldl_step_lookup b.scores hb a n
  · exact foldl_step_names b.scores hb a
  · simp [ScoreCard.new, ScoreCard.addCard, add_assign_step, find_rec_add,
      numAdd]
    norm_num
  · simp [ScoreCard.new, ScoreCard.addCard, add_assign_step, find_rec_add,
      numAdd]
    norm_num

/-- C7 witness: the merged total is the sum of the two cached totals at the
spec's second example. -/
theorem scorecard_add_merges_witness :
    (ScoreCard.addCard (ScoreCard.new [("a", some 1)])
        (ScoreCard.new [("b", some 1)])).total
      = numAdd (ScoreCard.new [("a", some 1)]).total
          (ScoreCard.new [("b", some 1)]).total :=
  (scorecard_add_merges _ _ (by simp [ScoreCard.new, namesOf])
    (by simp [ScoreCard.new, namesOf]) rfl).1

/-- Population of population.rs: programs, generation counter and the
index-aligned fitness results. -/
structure Pop (P F : Type) where
  population : List P
  generation : Nat
  scores : List F

/-- Population::score (population.rs lines 46-50). The supplied generator is
IGNORED by the source (its parameter is the wildcard pattern): every parallel
evaluation calls scoring_fn(p, thread_rng()), modeled by the hidden
per-evaluation thread-generator states threadRng i; collect_into keeps the
results index-aligned with the population. -/
def Pop.score {P F R : Type} (pop : Pop P F) (scoring_fn : P → R → F)
    (_rng : R) (threadRng : Nat → R) : Pop P F :=
  { pop with
    scores := pop.population.enum.map (fun ip => scoring_fn ip.2 (threadRng ip.1)) }

/-- C3 counterexample: two runs of score on equal populations, with the same
scoring function and the supplied randomness source in the same state 0, give
different score lists when the hidden thread generators differ: the supplied
source does not determine the result. -/
theorem score_hidden_generator_cx :
    (Pop.score ⟨[()], 0, ([] : List Nat)⟩ (fun _ r => r) (0 : Nat)
        (fun _ => 0)).scores = [0] ∧
    (Pop.score ⟨[()], 0, ([] : List Nat)⟩ (fun _ r => r) (0 : Nat)
        (fun _ => 1)).scores = [1] ∧
    ([0] : List Nat) ≠ [1] := by
  refine ⟨rfl, rfl, by simp⟩

/-- C3 amended: score ignores the supplied randomness source entirely — the
score list is determined by the population, the scoring function and the
hidden per-evaluation thread generators, for any states of the supplied
source. -/
theorem score_ignores_supplied_rng {P F R : Type} (pop : Pop P F)
    (scoring_fn : P → R → F) (r1 r2 : R) (threadRng : Nat → R) :
    Pop.score pop scoring_fn r1 threadRng
      = Pop.score pop scoring_fn r2 threadRng := rfl

/-- Total comparison of ScoreCards, used where Rust calls Ord::cmp directly
(max_by_key, sort_by_key): scorecard_cmp_total_order shows ScoreCard.cmp never
returns none, so the default branch is never taken. -/
def ScoreCard.cmpT (a b : ScoreCard) : Ordering :=
  (ScoreCard.cmp a b).getD .eq

/-- Iterator::max_by_key of the Rust standard library: none on an empty
iterator, and among equal keys the LAST maximal element wins. -/
def max_by_key {A B : Type} (key : A → B) (cmp : B → B → Ordering) :
    List A → Option A
  | [] => none
  | x :: xs =>
    some (xs.foldl (fun acc y => if cmp (key y) (key acc) = .lt then acc else y) x)

/-- Indexing pop.scores[i] for each candidate index (select.rs line 15): an
out-of-bounds index is a panic (none). -/
def index_scores (scores : List ScoreCard) :
    List Nat → Option (List (ScoreCard × Nat))
  | [] => some []
  | i :: rest =>
    match scores[i]? with
    | none => none
    | some s =>
      match index_scores scores rest with
      | none => none
      | some l => some ((s, i) :: l)

/-- tournament_selection (select.rs lines 6-17): draws tournament_size indexes
with replacement as next_u64() % count (a panic when the population is empty),
pairs each with its score, and returns the population member whose score is
maximal; the unwrap on an empty candidate iterator (tournament size 0) is a
panic. -/
def tournament_selection {P : Type} (tournament_size : Nat) (popl : List P)
    (scores : List ScoreCard) (draws : Nat → Nat) : Option P :=
  if popl.length = 0 then none
  else
    match index_scores scores
        ((List.range tournament_size).map (fun k => draws k % popl.length)) with
    | none => none
    | some cands =>
      match max_by_key (fun c => c.1) ScoreCard.cmpT cands with
      | none => none
      | some w => popl[w.2]?

/-- C6 counterexample: a tournament of size 2 over a population of size 1 does
not abort: it silently returns a normally selected member. -/
theorem tournament_selection_oversized_cx :
    tournament_selection 2 [(0 : Nat)] [ScoreCard.new [("t", none)]]
        (fun _ => 0) = some 0 ∧
    2 > List.length [(0 : Nat)] := by
  refine ⟨rfl, by decide⟩

theorem foldl_choice_mem {A : Type} (step : A → A → A)
    (hstep : ∀ a y, step a y = a ∨ step a y = y) :
    ∀ (t : List A) (a : A), t.foldl step a ∈ a :: t := by
  intro t
  induction t with
  | nil => intro a; exact List.mem_cons_self _ _
  | cons y rest ih =>
    intro a
    show rest.foldl step (step a y) ∈ a :: y :: rest
    have h1 := ih (step a y)
    rcases List.mem_cons.mp h1 with h | h
    · rw [h]
      rcases hstep a y with h2 | h2 <;> rw [h2]
      · exact List.mem_cons_self _ _
      · exact List.mem_cons_of_mem _ (List.mem_cons_self _ _)
    · exact List.mem_cons_of_mem _ (List.mem_cons_of_mem _ h)

theorem max_by_key_mem {A B : Type} (key : A → B) (cmp : B → B → Ordering)
    (l : List A) (w : A) (h : max_by_key key cmp l = some w) : w ∈ l := by
  rcases l with _ | ⟨x, xs⟩
  · exact Option.noConfusion h
  · have hw : w = xs.foldl
        (fun acc y => if cmp (key y) (key acc) = .lt then acc else y) x :=
      (Option.some.inj h).symm
    subst hw
    refine foldl_choice_mem _ ?_ xs x
    intro a y
    by_cases hc : cmp (key y) (key a) = .lt
    · exact Or.inl (if_pos hc)
    · exact Or.inr (if_neg hc)

theorem index_scores_spec (scores : List ScoreCard) :
    ∀ idxs : List Nat, (∀ i ∈ idxs, i < scores.length) →
      ∃ cands, index_scores scores idxs = some cands ∧
        cands.map Prod.snd = idxs := by
  intro idxs
  induction idxs with
  | nil => intro _; exact ⟨[], rfl, rfl⟩
  | cons i rest ih =>
    intro hlt
    obtain ⟨cands, hc, hm⟩ := ih (fun j hj => hlt j (List.mem_cons_of_mem _ hj))
    have hi : i < scores.length := hlt i (List.mem_cons_self _ _)
    refine ⟨(scores[i], i) :: cands, ?_, by simp [hm]⟩
    simp [index_scores, List.getElem?_eq_getElem hi, hc]

/-- C6 amended: tournament_selection never checks the tournament size against
the population size: for every tournament size of at least 1 — larger than the
population included — and every non-empty scored population it silently
returns a member of the population; the only panics are an empty population
(the modulo by zero) and a zero tournament size (the unwrap on an empty
iterator). -/
theorem tournament_selection_returns_member {P : Type} (tsize : Nat)
    (popl : List P) (scores : List ScoreCard) (draws : Nat → Nat)
    (h1 : 1 ≤ tsize) (h2 : popl ≠ []) (h3 : scores.length = popl.length) :
    ∃ p, tournament_selection tsize popl scores draws = some p ∧ p ∈ popl := by
  have hcount : 0 < popl.length := List.length_pos.mpr h2
  have hidx : ∀ i ∈ (List.range tsize).map (fun k => draws k % popl.length),
      i < scores.length := by
    intro i hi
    obtain ⟨k, _, hk⟩ := List.mem_map.mp hi
    rw [← hk, h3]
    exact Nat.mod_lt _ hcount
  obtain ⟨cands, hc, hm⟩ := index_scores_spec scores _ hidx
  have hcne : cands ≠ [] := by
    intro hnil
    rw [hnil] at hm
    have : (List.range tsize).map (fun k => draws k % popl.length) = [] := hm.symm
    rcases tsize with _ | t
    · exact absurd h1 (by simp)
    · simp [List.range_succ_eq_map] at this
  obtain ⟨c0, crest, hcands⟩ := List.exists_cons_of_ne_nil hcne
  have hmax : ∃ w, max_by_key (fun c => c.1) ScoreCard.cmpT cands = some w := by
    rw [hcands]; exact ⟨_, rfl⟩
  obtain ⟨w, hw⟩ := hmax
  have hwmem : w ∈ cands := max_by_key_mem _ _ _ _ hw
  have hwi : w.2 ∈ (List.range tsize).map (fun k => draws k % popl.length) := by
    rw [← hm]
    exact List.mem_map_of_mem _ hwmem
  have hwlt : w.2 < popl.length := by
    have := hidx _ hwi
    rwa [h3] at this
  refine ⟨popl[w.2], ?_, List.getElem_mem _⟩
  rw [tournament_selection, if_neg (Nat.pos_iff_ne_zero.mp hcount)]
  simp only [hc, hw]
  exact List.getElem?_eq_getElem hwlt

/-- C6 witness: the amended theorem applied at a concrete oversized
tournament. -/
theorem tournament_selection_returns_member_witness :
    ∃ p, tournament_selection 3 [(5 : Nat)] [ScoreCard.new [("t", none)]]
        (fun _ => 1) = some p ∧ p ∈ [(5 : Nat)] :=
  tournament_selection_returns_member 3 _ _ _ (by decide) (by simp) (by simp)

/-- Loop body of random_population (random_pop.rs lines 31-34) over the list
of indexes i in 0..n: each iteration computes 1 + i / (n / max_depth) with
Rust integer division, which panics (none) when a divisor is zero, and
generates one program of that height via the RandNode oracle. -/
def rp_go {P : Type} (n max_depth : Nat) (rand : Nat → P) :
    List Nat → Option (List P)
  | [] => some []
  | i :: rest =>
    if max_depth = 0 then none
    else if n / max_depth = 0 then none
    else
      match rp_go n max_depth rand rest with
      | none => none
      | some ps => some (rand (1 + i / (n / max_depth)) :: ps)

/-- random_population (random_pop.rs lines 29-36): builds a generation-0
population of n programs whose target heights step from 1 up to max_depth. -/
def random_population {P F : Type} (n max_depth : Nat) (rand : Nat → P) :
    Option (Pop P F) :=
  match rp_go n max_depth rand (List.range n) with
  | none => none
  | some ps => some ⟨ps, 0, []⟩

/-- C10 counterexample: max_depth = 0 satisfies max_depth <= n with n = 1, yet
random_population divides by zero (panics): totality needs 1 <= max_depth as
well, not only max_depth <= n. -/
theorem random_population_zero_depth_cx :
    (random_population 1 0 (fun _ => (0 : Nat)) : Option (Pop Nat Unit))
        = none ∧ (0 : Nat) ≤ 1 := by
  refine ⟨rfl, by decide⟩

theorem rp_go_total {P : Type} (n max_depth : Nat) (rand : Nat → P)
    (h0 : max_depth ≠ 0) (hq : n / max_depth ≠ 0) :
    ∀ l : List Nat, rp_go n max_depth rand l
      = some (l.map (fun i => rand (1 + i / (n / max_depth)))) := by
  intro l
  induction l with
  | nil => rfl
  | cons i rest ih => simp [rp_go, h0, hq, ih]

/-- C10 amended: random_population is total exactly on 1 <= max_depth <= n
(plus the trivial n = 0): under 1 <= max_depth <= n it returns exactly n
programs at generation 0 with no division by zero, while for n >= 1 and
max_depth > n the quotient n / max_depth is 0 and the height computation
divides by zero (panics) — and so does max_depth = 0. -/
theorem random_population_domain {P F : Type} (n max_depth : Nat)
    (rand : Nat → P) :
    (1 ≤ max_depth → max_depth ≤ n →
      ∃ ps : List P, (random_population n max_depth rand : Option (Pop P F))
          = some ⟨ps, 0, []⟩ ∧ ps.length = n) ∧
    (1 ≤ n → n < max_depth →
      (random_population n max_depth rand : Option (Pop P F)) = none) := by
  constructor
  · intro h1 h2
    have h0 : max_depth ≠ 0 := Nat.pos_iff_ne_zero.mp h1
    have hq : n / max_depth ≠ 0 :=
      Nat.pos_iff_ne_zero.mp (Nat.div_pos h2 h1)
    refine ⟨(List.range n).map (fun i => rand (1 + i / (n / max_depth))), ?_, by simp⟩
    rw [random_population, rp_go_total n max_depth rand h0 hq]
  · intro hn hlt
    have h0 : max_depth ≠ 0 := by omega
    have hq : n / max_depth = 0 := Nat.div_eq_of_lt hlt
    obtain ⟨m, rfl⟩ : ∃ m, n = m + 1 := ⟨n - 1, by omega⟩
    rw [random_population, List.range_succ_eq_map]
    simp [rp_go, h0, hq]

/-- C10 witness: the amended theorem applied at n = 2, max_depth = 1 (total
branch) and n = 1, max_depth = 2 (panic branch). -/
theorem random_population_domain_witness :
    (∃ ps : List Nat, (random_population 2 1 (fun _ => (0 : Nat))
        : Option (Pop Nat Unit)) = some ⟨ps, 0, []⟩ ∧ ps.length = 2) ∧
    (random_population 1 2 (fun _ => (0 : Nat)) : Option (Pop Nat Unit))
        = none :=
  ⟨(random_population_domain 2 1 (fun _ => 0)).1 (by decide) (by decide),
   (random_population_domain 1 2 (fun _ => 0)).2 (by decide) (by decide)⟩

/-- AST tree of ast.rs: a node has a kind tag (node_type), an ordered list of
children, and an allocation address addr modelling the heap identity of its
Box/Rc cell — same_node (ast.rs lines 95-102) compares exactly these raw
addresses. Leaf payload data is folded into the kind tag. -/
inductive RTree where
  | mk (addr : Nat) (kind : Nat) (children : List RTree)

def RTree.addr : RTree → Nat
  | .mk a _ _ => a

def RTree.kind : RTree → Nat
  | .mk _ k _ => k

def RTree.children : RTree → List RTree
  | .mk _ _ cs => cs

/-- Address-erased tree: the structural value of a tree, used to state
structural equality of trees living at different addresses. -/
inductive STree where
  | mk (kind : Nat) (children : List STree)

mutual

def strip : RTree → STree
  | .mk _ k cs => .mk k (stripL cs)

def stripL : List RTree → List STree
  | [] => []
  | c :: cs => strip c :: stripL cs

end

mutual

def RTree.addrs : RTree → List Nat
  | .mk a _ cs => a :: addrsL cs

def addrsL : List RTree → List Nat
  | [] => []
  | c :: cs => c.addrs ++ addrsL cs

end

mutual

/-- Clone of a tree (derived Clone on Box children is a deep copy): the copy
is structurally equal but lives at fresh addresses, allocated from the
counter f upward; returns the copy and the next free address. -/
def cloneFresh (f : Nat) : RTree → RTree × Nat
  | .mk _ k cs =>
    let p := cloneFreshL (f + 1) cs
    (.mk f k p.1, p.2)

def cloneFreshL (f : Nat) : List RTree → List RTree × Nat
  | [] => ([], f)
  | c :: rest =>
    let p := cloneFresh f c
    let q := cloneFreshL p.2 rest
    (p.1 :: q.1, q.2)

end

/-- same_node (ast.rs lines 95-102): identity comparison by raw address. -/
def sameNode (a b : RTree) : Bool := a.addr == b.addr

/-- clone_or_replace (ast.rs lines 108-114) threaded over the children list,
as every generated replace_child implementation calls it child by child: the
matching child (by address) consumes the replacement exactly once — a second
match hits take().unwrap() on None, a panic (none) — and every non-matching
child is deep-cloned at fresh addresses. Returns the rebuilt children, the
remaining replacement option and the next free address. -/
def replaceChildrenGo (old : RTree) :
    List RTree → Option RTree → Nat → Option (List RTree × Option RTree × Nat)
  | [], nc, f => some ([], nc, f)
  | c :: cs, nc, f =>
    if sameNode c old then
      match nc with
      | none => none
      | some y =>
        match replaceChildrenGo old cs none f with
        | none => none
        | some (cs2, nc2, f2) => some (y :: cs2, nc2, f2)
    else
      let p := cloneFresh f c
      match replaceChildrenGo old cs nc p.2 with
      | none => none
      | some (cs2, nc2, f2) => some (p.1 :: cs2, nc2, f2)

/-- replace_child of the AstNode contract (ast.rs line 17, generated by
impl_astnode): a new node value — a fresh allocation — whose children are
clone_or_replace of the old children. -/
def replace_child (t old : RTree) (nc : Option RTree) (f : Nat) :
    Option (RTree × Nat) :=
  match t with
  | .mk _ k cs =>
    match replaceChildrenGo old cs nc f with
    | none => none
    | some (cs2, _, f2) => some (.mk f2 k cs2, f2 + 1)

/-- NodeInTree (ast.rs lines 62-65): a zipper record holding the node and the
optional record of its parent context. -/
inductive NAP where
  | root (node : RTree)
  | child (node : RTree) (parent : NAP)

def NAP.node : NAP → RTree
  | .root n => n
  | .child n _ => n

mutual

/-- Traversal of find_nodes_and_parents (ast.rs lines 79-87): every node of a
subtree paired with its path-to-root record, in pre-order. -/
def fnapNode (n : RTree) (path : NAP) : List NAP :=
  match n with
  | .mk _ _ cs => fnapKids cs path

def fnapKids (cs : List RTree) (path : NAP) : List NAP :=
  match cs with
  | [] => []
  | c :: rest =>
    (NAP.child c path :: fnapNode c (NAP.child c path)) ++ fnapKids rest path

end

def find_nodes_and_parents (t : RTree) : List NAP :=
  NAP.root t :: fnapNode t (NAP.root t)

/-- do_replace_to_root (ast.rs lines 122-130): walk the record chain upward,
at each ancestor replacing its matching child with the already-rebuilt
subtree; at the root the replacement is taken (a panic if already consumed). -/
def do_replace_to_root : NAP → Option RTree → Nat → Option (RTree × Nat)
  | .root _, nc, f =>
    match nc with
    | none => none
    | some y => some (y, f)
  | .child n parent, nc, f =>
    match replace_child parent.node n nc f with
    | none => none
    | some (nn, f2) => do_replace_to_root parent (some nn) f2

/-- replace_to_root (ast.rs lines 117-120). -/
def replace_to_root (nap : NAP) (new_child : RTree) (f : Nat) :
    Option (RTree × Nat) :=
  do_replace_to_root nap (some new_child) f

/-- Validity of a zipper record for a tree: the chain ends at the tree's root
and each node is an element (the same allocation) of its parent's children:
exactly what find_nodes_and_parents produces. -/
def napValid (t : RTree) : NAP → Prop
  | .root r => r = t
  | .child n p => n ∈ (NAP.node p).children ∧ napValid t p

mutual

/-- Substitution at an address, the specification of replace_to_root: the
structural value of the tree with the unique subtree rooted at address x
replaced by y. -/
def substAddr (x : Nat) (y : STree) : RTree → STree
  | .mk a k cs => if a = x then y else .mk k (substAddrL x y cs)

def substAddrL (x : Nat) (y : STree) : List RTree → List STree
  | [] => []
  | c :: cs => substAddr x y c :: substAddrL x y cs

end

/-- Subtree occurrence: s is a node of t (the same allocation, not merely a
structurally equal one). -/
inductive Subtree : RTree → RTree → Prop where
  | refl (t : RTree) : Subtree t t
  | step {s c : RTree} {a k : Nat} {cs : List RTree} :
      c ∈ cs → Subtree s c → Subtree s (RTree.mk a k cs)

theorem addr_mem_addrs (t : RTree) : t.addr ∈ t.addrs := by
  cases t with
  | mk a k cs => exact List.mem_cons_self _ _

theorem addrsL_mem_sub (c : RTree) (cs : List RTree) (hc : c ∈ cs) :
    ∀ a ∈ c.addrs, a ∈ addrsL cs := by
  induction cs with
  | nil => simp at hc
  | cons d rest ih =>
    intro a ha
    rcases List.mem_cons.mp hc with h | h
    · subst h
      show a ∈ c.addrs ++ addrsL rest
      exact List.mem_append_left _ ha
    · show a ∈ d.addrs ++ addrsL rest
      exact List.mem_append_right _ (ih h a ha)

theorem nodup_node {a k : Nat} {cs : List RTree}
    (h : (RTree.mk a k cs).addrs.Nodup) :
    a ∉ addrsL cs ∧ (addrsL cs).Nodup := by
  have h2 : (a :: addrsL cs).Nodup := h
  exact ⟨(List.nodup_cons.mp h2).1, (List.nodup_cons.mp h2).2⟩

theorem nodup_kids_cons {c : RTree} {rest : List RTree}
    (h : (addrsL (c :: rest)).Nodup) :
    c.addrs.Nodup ∧ (addrsL rest).Nodup ∧ c.addrs.Disjoint (addrsL rest) := by
  have h2 : (c.addrs ++ addrsL rest).Nodup := h
  exact List.nodup_append.mp h2

theorem nodup_kids {cs : List RTree} (h : (addrsL cs).Nodup) :
    ∀ c ∈ cs, c.addrs.Nodup := by
  induction cs with
  | nil => intro c hc; simp at hc
  | cons d rest ih =>
    intro c hc
    obtain ⟨hd, hrest, _⟩ := nodup_kids_cons h
    rcases List.mem_cons.mp hc with h3 | h3
    · subst h3; exact hd
    · exact ih hrest c h3

mutual

theorem cloneFresh_spec (t : RTree) : ∀ f : Nat,
    strip (cloneFresh f t).1 = strip t ∧
    f ≤ (cloneFresh f t).2 ∧
    ∀ a ∈ (cloneFresh f t).1.addrs, f ≤ a ∧ a < (cloneFresh f t).2 := by
  cases t with
  | mk a k cs =>
    intro f
    obtain ⟨hs, hle, hb⟩ := cloneFreshL_spec cs (f + 1)
    refine ⟨?_, by simp only [cloneFresh]; omega, ?_⟩
    · show STree.mk k (stripL (cloneFreshL (f + 1) cs).1) = STree.mk k (stripL cs)
      rw [hs]
    · intro x hx
      simp only [cloneFresh] at hx ⊢
      rcases List.mem_cons.mp hx with hx | hx
      · subst hx; omega
      · have := hb x hx
        omega

theorem cloneFreshL_spec (cs : List RTree) : ∀ f : Nat,
    stripL (cloneFreshL f cs).1 = stripL cs ∧
    f ≤ (cloneFreshL f cs).2 ∧
    ∀ a ∈ addrsL (cloneFreshL f cs).1, f ≤ a ∧ a < (cloneFreshL f cs).2 := by
  cases cs with
  | nil =>
    intro f
    refine ⟨rfl, le_refl f, ?_⟩
    intro a ha
    simp [cloneFreshL, addrsL] at ha
  | cons c rest =>
    intro f
    obtain ⟨hs1, hle1, hb1⟩ := cloneFresh_spec c f
    obtain ⟨hs2, hle2, hb2⟩ := cloneFreshL_spec rest (cloneFresh f c).2
    refine ⟨?_, by simp only [cloneFreshL]; omega, ?_⟩
    · show strip (cloneFresh f c).1 :: stripL (cloneFreshL (cloneFresh f c).2 rest).1
        = strip c :: stripL rest
      rw [hs1, hs2]
    · intro x hx
      simp only [cloneFreshL] at hx ⊢
      have hx2 : x ∈ (cloneFresh f c).1.addrs
          ++ addrsL (cloneFreshL (cloneFresh f c).2 rest).1 := hx
      rcases List.mem_append.mp hx2 with hx3 | hx3
      · have := hb1 x hx3
        omega
      · have := hb2 x hx3
        omega

end

mutual

theorem substAddr_not_mem (x : Nat) (y : STree) (t : RTree) (h : x ∉ t.addrs) :
    substAddr x y t = strip t := by
  cases t with
  | mk a k cs =>
    have hax : a ≠ x := by
      intro he
      exact h (he ▸ List.mem_cons_self _ _)
    have hcs : x ∉ addrsL cs := by
      intro hm
      exact h (List.mem_cons_of_mem _ hm)
    show (if a = x then y else STree.mk k (substAddrL x y cs)) = STree.mk k (stripL cs)
    rw [if_neg hax, substAddrL_not_mem x y cs hcs]

theorem substAddrL_not_mem (x : Nat) (y : STree) (cs : List RTree)
    (h : x ∉ addrsL cs) : substAddrL x y cs = stripL cs := by
  cases cs with
  | nil => rfl
  | cons c rest =>
    have hc : x ∉ c.addrs := by
      intro hm
      exact h (by show x ∈ c.addrs ++ addrsL rest; exact List.mem_append_left _ hm)
    have hrest : x ∉ addrsL rest := by
      intro hm
      exact h (by show x ∈ c.addrs ++ addrsL rest; exact List.mem_append_right _ hm)
    show substAddr x y c :: substAddrL x y rest = strip c :: stripL rest
    rw [substAddr_not_mem x y c hc, substAddrL_not_mem x y rest hrest]

end

theorem subtree_addrs_sub {s t : RTree} (h : Subtree s t) :
    ∀ a ∈ s.addrs, a ∈ t.addrs := by
  induction h with
  | refl => intro a ha; exact ha
  | step hc _ ih =>
    intro a ha
    show a ∈ _ :: addrsL _
    exact List.mem_cons_of_mem _ (addrsL_mem_sub _ _ hc a (ih a ha))

theorem subtree_nodup {s t : RTree} (h : Subtree s t) (hnd : t.addrs.Nodup) :
    s.addrs.Nodup := by
  induction h with
  | refl => exact hnd
  | step hc _ ih => exact ih (nodup_kids (nodup_node hnd).2 _ hc)

theorem subtree_trans {s u t : RTree} (h1 : Subtree s u) (h2 : Subtree u t) :
    Subtree s t := by
  induction h2 with
  | refl => exact h1
  | step hc _ ih => exact Subtree.step hc ih

theorem napValid_subtree (t : RTree) : ∀ nap : NAP, napValid t nap →
    Subtree (NAP.node nap) t := by
  intro nap
  induction nap with
  | root r =>
    intro h
    have hr : r = t := h
    rw [show NAP.node (.root r) = r from rfl, hr]
    exact Subtree.refl t
  | child n p ih =>
    intro h
    obtain ⟨hmem, hval⟩ := h
    have hn : Subtree n (NAP.node p) := by
      rcases hnp : NAP.node p with ⟨a, k, cs⟩
      rw [hnp] at hmem
      exact Subtree.step hmem (Subtree.refl n)
    exact subtree_trans hn (ih hval)

mutual

theorem fnapNode_valid (t n : RTree) (path : NAP) (hv : napValid t path)
    (hn : NAP.node path = n) : ∀ x ∈ fnapNode n path, napValid t x := by
  cases n with
  | mk a k cs =>
    intro x hx
    refine fnapKids_valid t cs path hv ?_ x hx
    intro c hc
    rw [hn]
    exact hc

theorem fnapKids_valid (t : RTree) (cs : List RTree) (path : NAP)
    (hv : napValid t path) (hsub : ∀ c ∈ cs, c ∈ (NAP.node path).children) :
    ∀ x ∈ fnapKids cs path, napValid t x := by
  cases cs with
  | nil => intro x hx; simp [fnapKids] at hx
  | cons c rest =>
    intro x hx
    rw [show fnapKids (c :: rest) path
        = (NAP.child c path :: fnapNode c (NAP.child c path)) ++ fnapKids rest path
      from rfl] at hx
    rcases List.mem_append.mp hx with hx2 | hx2
    · rcases List.mem_cons.mp hx2 with hx3 | hx3
      · subst hx3
        exact ⟨hsub c (List.mem_cons_self _ _), hv⟩
      · have hvc : napValid t (NAP.child c path) :=
          ⟨hsub c (List.mem_cons_self _ _), hv⟩
        exact fnapNode_valid t c (NAP.child c path) hvc rfl x hx3
    · exact fnapKids_valid t rest path hv
        (fun d hd => hsub d (List.mem_cons_of_mem _ hd)) x hx2

end

theorem fnap_valid (t : RTree) : ∀ x ∈ find_nodes_and_parents t, napValid t x := by
  intro x hx
  rw [show find_nodes_and_parents t = NAP.root t :: fnapNode t (NAP.root t)
    from rfl] at hx
  rcases List.mem_cons.mp hx with hx2 | hx2
  · subst hx2
    exact rfl
  · exact fnapNode_valid t t (NAP.root t) rfl rfl x hx2

theorem rcGo_nomatch (old : RTree) : ∀ (cs : List RTree) (f : Nat),
    (∀ c ∈ cs, old.addr ∉ c.addrs) →
    ∃ cs2 f2, replaceChildrenGo old cs none f = some (cs2, none, f2) ∧
      f ≤ f2 ∧ stripL cs2 = stripL cs ∧
      ∀ a ∈ addrsL cs2, f ≤ a ∧ a < f2 := by
  intro cs
  induction cs with
  | nil =>
    intro f _
    exact ⟨[], f, rfl, le_refl f, rfl, by intro a ha; simp [addrsL] at ha⟩
  | cons c rest ih =>
    intro f hno
    have hc : old.addr ∉ c.addrs := hno c (List.mem_cons_self _ _)
    have hsame : sameNode c old = false := by
      simp only [sameNode, beq_eq_false_iff_ne, ne_eq]
      intro he
      exact hc (he ▸ addr_mem_addrs c)
    obtain ⟨hs1, hle1, hb1⟩ := cloneFresh_spec c f
    obtain ⟨cs2, f2, hgo, hle2, hst, hb2⟩ :=
      ih (cloneFresh f c).2 (fun d hd => hno d (List.mem_cons_of_mem _ hd))
    refine ⟨(cloneFresh f c).1 :: cs2, f2, ?_, by omega, ?_, ?_⟩
    · simp [replaceChildrenGo, hsame, hgo]
    · show strip (cloneFresh f c).1 :: stripL cs2 = strip c :: stripL rest
      rw [hs1, hst]
    · intro a ha
      have ha2 : a ∈ (cloneFresh f c).1.addrs ++ addrsL cs2 := ha
      rcases List.mem_append.mp ha2 with h | h
      · have := hb1 a h; omega
      · have := hb2 a h; omega

theorem rcGo_spec (old nc : RTree) : ∀ (cs : List RTree) (f : Nat),
    (addrsL cs).Nodup → old ∈ cs →
    ∃ cs2 f2, replaceChildrenGo old cs (some nc) f = some (cs2, none, f2) ∧
      f ≤ f2 ∧
      stripL cs2 = substAddrL old.addr (strip nc) cs ∧
      ∀ a ∈ addrsL cs2, a ∈ nc.addrs ∨ (f ≤ a ∧ a < f2) := by
  intro cs
  induction cs with
  | nil => intro f _ hmem; simp at hmem
  | cons c rest ih =>
    intro f hnd hmem
    obtain ⟨hndc, hndr, hdisj⟩ := nodup_kids_cons hnd
    rcases List.mem_cons.mp hmem with heq | hmem2
    · subst heq
      have hsame : sameNode old old = true := by simp [sameNode]
      have hnorest : ∀ d ∈ rest, old.addr ∉ d.addrs := by
        intro d hd hmm
        exact hdisj (addr_mem_addrs old) (addrsL_mem_sub d rest hd old.addr hmm)
      obtain ⟨cs2, f2, hgo, hle, hst, hb⟩ := rcGo_nomatch old rest f hnorest
      refine ⟨nc :: cs2, f2, ?_, hle, ?_, ?_⟩
      · simp [replaceChildrenGo, hsame, hgo]
      · show strip nc :: stripL cs2
          = substAddr old.addr (strip nc) old :: substAddrL old.addr (strip nc) rest
        have hrest : old.addr ∉ addrsL rest := by
          intro hm
          exact hdisj (addr_mem_addrs old) hm
        rw [hst, substAddrL_not_mem old.addr (strip nc) rest hrest]
        congr 1
        cases old with
        | mk a k cs3 => simp [substAddr, RTree.addr]
      · intro a ha
        have ha2 : a ∈ nc.addrs ++ addrsL cs2 := ha
        rcases List.mem_append.mp ha2 with h | h
        · exact Or.inl h
        · right; have := hb a h; omega
    · have haddr : old.addr ∈ addrsL rest :=
        addrsL_mem_sub old rest hmem2 old.addr (addr_mem_addrs old)
      have hsame : sameNode c old = false := by
        simp only [sameNode, beq_eq_false_iff_ne, ne_eq]
        intro he
        exact hdisj (he ▸ addr_mem_addrs c) haddr
      obtain ⟨hs1, hle1, hb1⟩ := cloneFresh_spec c f
      obtain ⟨cs2, f2, hgo, hle2, hst, hb⟩ := ih (cloneFresh f c).2 hndr hmem2
      refine ⟨(cloneFresh f c).1 :: cs2, f2, ?_, by omega, ?_, ?_⟩
      · simp [replaceChildrenGo, hsame, hgo]
      · show strip (cloneFresh f c).1 :: stripL cs2
          = substAddr old.addr (strip nc) c :: substAddrL old.addr (strip nc) rest
        have hnc : old.addr ∉ c.addrs := fun hm => hdisj hm haddr
        rw [hs1, hst, substAddr_not_mem old.addr (strip nc) c hnc]
      · intro a ha
        have ha2 : a ∈ (cloneFresh f c).1.addrs ++ addrsL cs2 := ha
        rcases List.mem_append.mp ha2 with h | h
        · right; have := hb1 a h; omega
        · rcases hb a h with h2 | h2
          · exact Or.inl h2
          · right; omega

theorem replace_child_spec (p old nc : RTree) (f : Nat)
    (hnd : p.addrs.Nodup) (hmem : old ∈ p.children) :
    ∃ p2 f2, replace_child p old (some nc) f = some (p2, f2) ∧
      f ≤ f2 ∧
      strip p2 = substAddr old.addr (strip nc) p ∧
      ∀ a ∈ p2.addrs, a ∈ nc.addrs ∨ (f ≤ a ∧ a < f2) := by
  cases p with
  | mk a k cs =>
    obtain ⟨hna, hncs⟩ := nodup_node hnd
    have hmem2 : old ∈ cs := hmem
    obtain ⟨cs2, f2, hgo, hle, hst, hb⟩ := rcGo_spec old nc cs f hncs hmem2
    refine ⟨.mk f2 k cs2, f2 + 1, ?_, by omega, ?_, ?_⟩
    · simp [replace_child, hgo]
    · have hax : a ≠ old.addr := by
        intro he
        exact hna (he ▸ addrsL_mem_sub old cs hmem2 old.addr (addr_mem_addrs old))
      show STree.mk k (stripL cs2) = substAddr old.addr (strip nc) (RTree.mk a k cs)
      rw [show substAddr old.addr (strip nc) (RTree.mk a k cs)
          = if a = old.addr then strip nc
            else STree.mk k (substAddrL old.addr (strip nc) cs) from rfl,
        if_neg hax, hst]
    · intro x hx
      have hx2 : x ∈ f2 :: addrsL cs2 := hx
      rcases List.mem_cons.mp hx2 with h | h
      · right; omega
      · rcases hb x h with h2 | h2
        · exact Or.inl h2
        · right; omega

theorem substAddrL_congr_at (w1 w2 : STree) (b x : Nat) (c : RTree) :
    ∀ cs : List RTree, c ∈ cs → (addrsL cs).Nodup →
    b ∈ c.addrs → x ∈ c.addrs →
    substAddr b w1 c = substAddr x w2 c →
    substAddrL b w1 cs = substAddrL x w2 cs := by
  intro cs
  induction cs with
  | nil => intro h; simp at h
  | cons d rest ih =>
    intro hmem hnd hb hx hagree
    obtain ⟨hndd, hndr, hdisj⟩ := nodup_kids_cons hnd
    show substAddr b w1 d :: substAddrL b w1 rest
      = substAddr x w2 d :: substAddrL x w2 rest
    rcases List.mem_cons.mp hmem with heq | hmem2
    · subst heq
      have hbr : b ∉ addrsL rest := fun hm => hdisj hb hm
      have hxr : x ∉ addrsL rest := fun hm => hdisj hx hm
      rw [hagree, substAddrL_not_mem b w1 rest hbr,
        substAddrL_not_mem x w2 rest hxr]
    · have hbd : b ∉ d.addrs := by
        intro hm
        exact hdisj hm (addrsL_mem_sub c rest hmem2 b hb)
      have hxd : x ∉ d.addrs := by
        intro hm
        exact hdisj hm (addrsL_mem_sub c rest hmem2 x hx)
      rw [substAddr_not_mem b w1 d hbd, substAddr_not_mem x w2 d hxd,
        ih hmem2 hndr hb hx hagree]

theorem subst_compose {s t : RTree} (h : Subtree s t) : t.addrs.Nodup →
    ∀ (x : Nat) (y : STree), x ∈ s.addrs →
    substAddr s.addr (substAddr x y s) t = substAddr x y t := by
  induction h with
  | refl =>
    intro _ x y _
    cases s with
    | mk a k cs =>
      show (if a = a then substAddr x y (RTree.mk a k cs) else _) = _
      rw [if_pos rfl]
  | @step c a k cs hc hsub ih =>
    intro hnd x y hx
    obtain ⟨hna, hncs⟩ := nodup_node hnd
    have hsc : s.addr ∈ c.addrs := subtree_addrs_sub hsub s.addr (addr_mem_addrs s)
    have hxc : x ∈ c.addrs := subtree_addrs_sub hsub x hx
    have has : a ≠ s.addr := fun he => hna (he ▸ addrsL_mem_sub c cs hc s.addr hsc)
    have hax : a ≠ x := fun he => hna (he ▸ addrsL_mem_sub c cs hc x hxc)
    show (if a = s.addr then substAddr x y s
        else STree.mk k (substAddrL s.addr (substAddr x y s) cs))
      = (if a = x then y else STree.mk k (substAddrL x y cs))
    rw [if_neg has, if_neg hax]
    congr 1
    exact substAddrL_congr_at (substAddr x y s) y s.addr x c cs hc hncs hsc hxc
      (ih (nodup_kids hncs c hc) x y hx)

theorem do_rtr_spec (t : RTree) (hnd : t.addrs.Nodup) :
    ∀ nap : NAP, napValid t nap → ∀ (nc : RTree) (f : Nat),
    ∃ t2 f2, do_replace_to_root nap (some nc) f = some (t2, f2) ∧
      f ≤ f2 ∧
      strip t2 = substAddr (NAP.node nap).addr (strip nc) t ∧
      ∀ a ∈ t2.addrs, a ∈ nc.addrs ∨ (f ≤ a ∧ a < f2) := by
  intro nap
  induction nap with
  | root r =>
    intro hv nc f
    have hr : r = t := hv
    subst hr
    refine ⟨nc, f, rfl, le_refl f, ?_, fun a ha => Or.inl ha⟩
    show strip nc = substAddr (NAP.node (.root r)).addr (strip nc) r
    cases r with
    | mk a k cs =>
      show strip nc = if a = a then strip nc else _
      rw [if_pos rfl]
  | child n p ih =>
    intro hv nc f
    obtain ⟨hmem, hvp⟩ := hv
    have hsubp : Subtree (NAP.node p) t := napValid_subtree t p hvp
    have hndp : (NAP.node p).addrs.Nodup := subtree_nodup hsubp hnd
    obtain ⟨p2, f1, hrc, hle1, hstp, hbp⟩ :=
      replace_child_spec (NAP.node p) n nc f hndp hmem
    obtain ⟨t2, f2, hgo, hle2, hst2, hb2⟩ := ih hvp p2 f1
    refine ⟨t2, f2, ?_, by omega, ?_, ?_⟩
    · show do_replace_to_root (NAP.child n p) (some nc) f = some (t2, f2)
      simp [do_replace_to_root, hrc, hgo]
    · rw [hst2, hstp]
      have hns : Subtree n (NAP.node p) := by
        rcases hq : NAP.node p with ⟨a, k, cs⟩
        rw [hq] at hmem
        exact Subtree.step hmem (Subtree.refl n)
      exact subst_compose hsubp hnd n.addr (strip nc)
        (subtree_addrs_sub hns n.addr (addr_mem_addrs n))
    · intro a ha
      rcases hb2 a ha with h | h
      · rcases hbp a h with h2 | h2
        · exact Or.inl h2
        · right; omega
      · right; omega

/-- C2 amended: for every tree with distinct node addresses and every
traversal record in it, replace_to_root(record_for_X, Y) succeeds and rebuilds
the tree with Y at X's position (the unique node at X's address) and the same
structural value everywhere else; but every node outside the inserted Y — the
root-to-X path AND the subtrees hanging off it — is a fresh allocation:
off-path subtrees are structurally equal deep clones of the originals (the
derived Clone copies Box children), not reference-identical. -/
theorem replace_to_root_spec (t : RTree) (nap : NAP) (y : RTree) (fresh : Nat)
    (hnd : t.addrs.Nodup) (hmem : nap ∈ find_nodes_and_parents t) :
    ∃ t2 f2, replace_to_root nap y fresh = some (t2, f2) ∧
      strip t2 = substAddr (NAP.node nap).addr (strip y) t ∧
      fresh ≤ f2 ∧
      ∀ a ∈ t2.addrs, a ∈ y.addrs ∨ fresh ≤ a := by
  obtain ⟨t2, f2, h1, h2, h3, h4⟩ :=
    do_rtr_spec t hnd nap (fnap_valid t nap hmem) y fresh
  exact ⟨t2, f2, h1, h3, h2, fun a ha => (h4 a ha).imp id (fun hh => hh.1)⟩

/-- C2 witness: the amended theorem applied at a concrete two-child tree and
the record of its first child. -/
theorem replace_to_root_spec_witness :
    ∃ t2 f2, replace_to_root
        (NAP.child (RTree.mk 1 6 [])
          (NAP.root (RTree.mk 0 5 [RTree.mk 1 6 [], RTree.mk 2 7 []])))
        (RTree.mk 10 9 []) 20 = some (t2, f2) ∧
      strip t2 = substAddr 1 (strip (RTree.mk 10 9 []))
        (RTree.mk 0 5 [RTree.mk 1 6 [], RTree.mk 2 7 []]) ∧
      20 ≤ f2 ∧
      ∀ a ∈ t2.addrs, a ∈ (RTree.mk 10 9 []).addrs ∨ 20 ≤ a :=
  replace_to_root_spec (RTree.mk 0 5 [RTree.mk 1 6 [], RTree.mk 2 7 []])
    (NAP.child (RTree.mk 1 6 [])
      (NAP.root (RTree.mk 0 5 [RTree.mk 1 6 [], RTree.mk 2 7 []])))
    (RTree.mk 10 9 []) 20 (by decide)
    (List.mem_cons_of_mem _ (List.mem_cons_self _ _))

/-- C2 counterexample: the concrete run refuting reference identity: in the
tree at addresses 0, 1, 2, replacing the child at address 1 rebuilds a tree
whose off-path sibling is a structurally equal copy at the FRESH address 20 —
the original allocation at address 2 does not occur in the result, so the
off-path subtree is a copy, not the original reused by reference. -/
theorem replace_to_root_copies_cx :
    (NAP.child (RTree.mk 1 6 [])
        (NAP.root (RTree.mk 0 5 [RTree.mk 1 6 [], RTree.mk 2 7 []])))
      ∈ find_nodes_and_parents (RTree.mk 0 5 [RTree.mk 1 6 [], RTree.mk 2 7 []]) ∧
    replace_to_root
        (NAP.child (RTree.mk 1 6 [])
          (NAP.root (RTree.mk 0 5 [RTree.mk 1 6 [], RTree.mk 2 7 []])))
        (RTree.mk 10 9 []) 20
      = some (RTree.mk 21 5 [RTree.mk 10 9 [], RTree.mk 20 7 []], 22) ∧
    (2 : Nat) ∈ (RTree.mk 0 5 [RTree.mk 1 6 [], RTree.mk 2 7 []]).addrs ∧
    (2 : Nat) ∉ (RTree.mk 21 5 [RTree.mk 10 9 [], RTree.mk 20 7 []]).addrs ∧
    strip (RTree.mk 20 7 []) = strip (RTree.mk 2 7 []) := by
  refine ⟨List.mem_cons_of_mem _ (List.mem_cons_self _ _), rfl, ?_, ?_, rfl⟩
  · decide
  · decide

/-- depth of the mutation engine (genetic/mutate.rs lines 21-26): 1 plus the
parent's depth, where the match contributes 0 for a missing parent — so the
root record has depth 1. -/
def depthNap : NAP → Int
  | .root _ => 1 + 0
  | .child _ parent => 1 + depthNap parent

/-- Depth as the spec defines it: 0 for the root record, 1 + the parent's
depth otherwise. -/
def specDepth : NAP → Int
  | .root _ => 0
  | .child _ parent => 1 + specDepth parent

/-- rand::Rng::choose: none on an empty slice, otherwise the element selected
by the draw at cursor k, which is consumed. -/
def rng_choose {A : Type} (l : List A) (s : Nat → Nat) (k : Nat) :
    Option A × Nat :=
  (if l.isEmpty then none else l[s k % l.length]?, k + 1)

/-- mutate_tree (genetic/mutate.rs lines 13-19): choose one traversal record
uniformly, ask its node for a mutation with the remaining height
target_height - depth (the Mutatable::mutate trait call is the oracle mutf,
absorbing its own randomness), and rebuild with replace_to_root; the unwrap
on an empty choice is a panic (none). Returns the tree, the rng cursor and
the next free address. -/
def mutate_tree (ast : RTree) (target_height : Int)
    (mutf : RTree → Int → RTree) (s : Nat → Nat) (k : Nat) (fresh : Nat) :
    Option (RTree × Nat × Nat) :=
  match rng_choose (find_nodes_and_parents ast) s k with
  | (none, _) => none
  | (some picked, k2) =>
    match replace_to_root picked
        (mutf picked.node (target_height - depthNap picked)) fresh with
    | none => none
    | some (t2, f2) => some (t2, k2, f2)

/-- C9 counterexample: the root record has depth 1 in the code, not the 0 the
spec's depth_of assigns it. -/
theorem depth_root_one_cx :
    depthNap (NAP.root (RTree.mk 0 0 [])) = 1 ∧ (1 : Int) ≠ 0 := by
  refine ⟨by simp [depthNap], by decide⟩

/-- C9 amended: the mutation engine's depth is one-based — 1 for the root
record and 1 + depth of the parent record otherwise, exactly the spec's
zero-based depth_of plus one — and mutate_tree passes
targetHeight - (depth_of(picked) + 1) as the remaining-height budget to the
picked node's mutate. -/
theorem mutate_depth_one_based :
    (∀ t : RTree, depthNap (NAP.root t) = 1) ∧
    (∀ (n : RTree) (p : NAP), depthNap (NAP.child n p) = 1 + depthNap p) ∧
    (∀ nap : NAP, depthNap nap = specDepth nap + 1) ∧
    (∀ (ast : RTree) (th : Int) (mutf : RTree → Int → RTree) (s : Nat → Nat)
        (k fresh : Nat) (picked : NAP) (k2 : Nat),
      rng_choose (find_nodes_and_parents ast) s k = (some picked, k2) →
      mutate_tree ast th mutf s k fresh
        = match replace_to_root picked
              (mutf picked.node (th - (specDepth picked + 1))) fresh with
          | none => none
          | some (t2, f2) => some (t2, k2, f2)) := by
  have hd : ∀ nap : NAP, depthNap nap = specDepth nap + 1 := by
    intro nap
    induction nap with
    | root _ => simp [depthNap, specDepth]
    | child n p ih => simp [depthNap, specDepth, ih]; ring
  refine ⟨fun t => by simp [depthNap], fun n p => rfl, hd, ?_⟩
  intro ast th mutf s k fresh picked k2 hpick
  simp only [mutate_tree, hpick, hd picked]

/-- C9 witness: a concrete mutation of a single-leaf tree, where the picked
record is the root at spec depth 0, so the budget is the target height minus
one. -/
theorem mutate_depth_one_based_witness :
    mutate_tree (RTree.mk 0 0 []) 5 (fun _ _ => RTree.mk 100 0 [])
        (fun _ => 0) 0 50
      = some (RTree.mk 100 0 [], 1, 50) :=
  mutate_depth_one_based.2.2.2 (RTree.mk 0 0 []) 5 (fun _ _ => RTree.mk 100 0 [])
    (fun _ => 0) 0 50 (NAP.root (RTree.mk 0 0 [])) 1 rfl

/-- BTreeMap insertion for group_by_type: keys kept in ascending order,
values appended in traversal order. -/
def gbt_insert (t : Nat) (nap : NAP) :
    List (Nat × List NAP) → List (Nat × List NAP)
  | [] => [(t, [nap])]
  | (k, v) :: rest =>
    if t < k then (t, [nap]) :: (k, v) :: rest
    else if t = k then (k, v ++ [nap]) :: rest
    else (k, v) :: gbt_insert t nap rest

/-- group_by_type (genetic/crossover.rs lines 35-45): group the traversal
records of a tree by their node's type tag. -/
def group_by_type (naps : List NAP) : List (Nat × List NAP) :=
  naps.foldl (fun m nap => gbt_insert (NAP.node nap).kind nap m) []

/-- Shared node types (crossover.rs lines 20-22): the keys of the first map
whose type also occurs in the second. -/
def shared_node_types (nodes1 nodes2 : List (Nat × List NAP)) : List Nat :=
  (nodes1.map Prod.fst).filter (fun t => (List.lookup t nodes2).isSome)

/-- Choice of the crossover type (crossover.rs line 23): the unwrap on an
empty shared-type intersection is a panic (none). -/
def crossover_pick_type (ast1 ast2 : RTree) (s : Nat → Nat) (k : Nat) :
    Option (Nat × Nat) :=
  match rng_choose
      (shared_node_types (group_by_type (find_nodes_and_parents ast1))
        (group_by_type (find_nodes_and_parents ast2))) s k with
  | (none, _) => none
  | (some t, k2) => some (t, k2)

/-- Choice of one record of the given type in a tree (crossover.rs lines
26-27): the unwraps on a missing key or an empty group are panics. -/
def crossover_pick_nap (ast : RTree) (typ : Nat) (s : Nat → Nat) (k : Nat) :
    Option (NAP × Nat) :=
  match List.lookup typ (group_by_type (find_nodes_and_parents ast)) with
  | none => none
  | some g =>
    match rng_choose g s k with
    | (none, _) => none
    | (some nap, k2) => some (nap, k2)

/-- crossover_tree (crossover.rs lines 15-33): pick a shared node type, one
record of that type in each tree, and swap deep copies of the two subtrees,
rebuilding both trees via replace_to_root. Returns both offspring, the rng
cursor and the next free address. -/
def crossover_tree (ast1 ast2 : RTree) (s : Nat → Nat) (k : Nat)
    (fresh : Nat) : Option (RTree × RTree × Nat × Nat) :=
  match crossover_pick_type ast1 ast2 s k with
  | none => none
  | some (typ, k1) =>
    match crossover_pick_nap ast1 typ s k1 with
    | none => none
    | some (nap1, k2) =>
      match crossover_pick_nap ast2 typ s k2 with
      | none => none
      | some (nap2, k3) =>
        let c1 := cloneFresh fresh nap2.node
        match replace_to_root nap1 c1.1 c1.2 with
        | none => none
        | some (child1, f1) =>
          let c2 := cloneFresh f1 nap1.node
          match replace_to_root nap2 c2.1 c2.2 with
          | none => none
          | some (child2, f2) => some (child1, child2, k3, f2)

/-- C8: for every random outcome under which both subtree picks of
crossover_tree(A, A) land on the root records, the crossover is a structural
no-op: it succeeds and both offspring are structurally equal to A. -/
theorem crossover_root_noop (a : RTree) (s : Nat → Nat) (k fresh : Nat)
    (typ k1 k2 k3 : Nat)
    (hty : crossover_pick_type a a s k = some (typ, k1))
    (h1 : crossover_pick_nap a typ s k1 = some (NAP.root a, k2))
    (h2 : crossover_pick_nap a typ s k2 = some (NAP.root a, k3)) :
    ∃ c1 c2 f2, crossover_tree a a s k fresh = some (c1, c2, k3, f2) ∧
      strip c1 = strip a ∧ strip c2 = strip a := by
  refine ⟨(cloneFresh fresh a).1, (cloneFresh (cloneFresh fresh a).2 a).1,
    (cloneFresh (cloneFresh fresh a).2 a).2, ?_, ?_, ?_⟩
  · simp only [crossover_tree, hty, h1, h2]
    rfl
  · exact (cloneFresh_spec a fresh).1
  · exact (cloneFresh_spec a (cloneFresh fresh a).2).1

/-- C8 witness: crossover of a single-leaf tree with itself, root records
picked by the constant-zero draw stream. -/
theorem crossover_root_noop_witness :
    ∃ c1 c2 f2,
      crossover_tree (RTree.mk 0 7 []) (RTree.mk 0 7 []) (fun _ => 0) 0 5
        = some (c1, c2, 3, f2) ∧
      strip c1 = strip (RTree.mk 0 7 []) ∧
      strip c2 = strip (RTree.mk 0 7 []) :=
  crossover_root_noop (RTree.mk 0 7 []) (fun _ => 0) 0 5 7 1 2 3 rfl rfl rfl

/-- Weights (genetic/evolve.rs lines 9-14): unnormalized integer shares for
the three operators plus the tree height bound (an i32). -/
structure Weights where
  reproduce : Nat
  mutate : Nat
  crossover : Nat
  tree_height : Int

/-- Reinterpretation of a u32 draw as an i32 (the `as i32` cast in evolve.rs
line 35). -/
def toI32 (n : Nat) : Int :=
  if n % 4294967296 < 2147483648 then ((n % 4294967296 : Nat) : Int)
  else ((n % 4294967296 : Nat) : Int) - 4294967296

/-- Evolve loop (evolve.rs lines 26-53) with the pick! macro (pick.rs)
expanded: while the new population is smaller than the input's, draw
random_number = next_u32() % total (a panic when the weights sum to zero) and
run the band it falls in: reproduce adds the selected parent, mutate adds one
mutated tree (the target-height draw next_u32() as i32 % tree_height panics
for a zero height, and for the i32::MIN % -1 overflow), crossover with at
least two members adds BOTH offspring (with fewer it retries). Modeled with
explicit fuel for the unbounded loop: none covers both a panic and exhausted
fuel; the selector callback is the oracle sel (chosen program plus advanced
cursor), node mutation the oracle mutf. Returns the new population, the
cursor and the next free address. -/
def evolveGo {F : Type} (pop : Pop RTree F) (w : Weights)
    (sel : Pop RTree F → (Nat → Nat) → Nat → RTree × Nat)
    (mutf : RTree → Int → RTree) (s : Nat → Nat) :
    Nat → Nat → Nat → Pop RTree F → Option (Pop RTree F × Nat × Nat)
  | 0, _, _, _ => none
  | fuel + 1, k, fresh, ret =>
    if ret.population.length < pop.population.length then
      let total := w.reproduce + w.mutate + w.crossover
      if total = 0 then none
      else
        let r := s k % total
        if r < w.reproduce then
          let pr := sel pop s (k + 1)
          evolveGo pop w sel mutf s fuel pr.2 fresh
            { ret with population := ret.population ++ [pr.1] }
        else if r < w.reproduce + w.mutate then
          let pr := sel pop s (k + 1)
          if w.tree_height = 0 then none
          else if w.tree_height = -1 ∧ toI32 (s pr.2) = -2147483648 then none
          else
            let th := Int.tmod (toI32 (s pr.2)) w.tree_height
            match mutate_tree pr.1 th mutf s (pr.2 + 1) fresh with
            | none => none
            | some (m, k2, f2) =>
              evolveGo pop w sel mutf s fuel k2 f2
                { ret with population := ret.population ++ [m] }
        else
          if pop.population.length < 2 then
            evolveGo pop w sel mutf s fuel (k + 1) fresh ret
          else
            let p1 := sel pop s (k + 1)
            let p2 := sel pop s p1.2
            match crossover_tree p1.1 p2.1 s p2.2 fresh with
            | none => none
            | some (c1, c2, k2, f2) =>
              evolveGo pop w sel mutf s fuel k2 f2
                { ret with population := ret.population ++ [c1, c2] }
    else some (ret, k, fresh)

/-- evolve (evolve.rs lines 21-55): run the loop from an empty population at
generation + 1. -/
def evolve {F : Type} (pop : Pop RTree F) (w : Weights)
    (sel : Pop RTree F → (Nat → Nat) → Nat → RTree × Nat)
    (mutf : RTree → Int → RTree) (s : Nat → Nat)
    (fuel k fresh : Nat) : Option (Pop RTree F × Nat × Nat) :=
  evolveGo pop w sel mutf s fuel k fresh ⟨[], pop.generation + 1, []⟩

theorem evolveGo_size {F : Type} (pop : Pop RTree F) (w : Weights)
    (sel : Pop RTree F → (Nat → Nat) → Nat → RTree × Nat)
    (mutf : RTree → Int → RTree) (s : Nat → Nat) :
    ∀ (fuel k fresh : Nat) (ret out : Pop RTree F) (k2 f2 : Nat),
      evolveGo pop w sel mutf s fuel k fresh ret = some (out, k2, f2) →
      ret.population.length ≤ pop.population.length + 1 →
      pop.population.length ≤ out.population.length ∧
        out.population.length ≤ pop.population.length + 1 ∧
        out.generation = ret.generation ∧ out.scores = ret.scores := by
  intro fuel
  induction fuel with
  | zero =>
    intro k fresh ret out k2 f2 h _
    exact Option.noConfusion h
  | succ n ih =>
    intro k fresh ret out k2 f2 h hle
    rw [evolveGo] at h
    by_cases hlt : ret.population.length < pop.population.length
    · rw [if_pos hlt] at h
      simp only at h
      by_cases htot : w.reproduce + w.mutate + w.crossover = 0
      · rw [if_pos htot] at h
        exact Option.noConfusion h
      · rw [if_neg htot] at h
        by_cases hr1 : s k % (w.reproduce + w.mutate + w.crossover) < w.reproduce
        · rw [if_pos hr1] at h
          have := ih _ _ _ _ _ _ h (by simp; omega)
          simpa using this
        · rw [if_neg hr1] at h
          by_cases hr2 : s k % (w.reproduce + w.mutate + w.crossover)
              < w.reproduce + w.mutate
          · rw [if_pos hr2] at h
            by_cases hth : w.tree_height = 0
            · rw [if_pos hth] at h
              exact Option.noConfusion h
            · rw [if_neg hth] at h
              by_cases hmin : w.tree_height = -1
                  ∧ toI32 (s (sel pop s (k + 1)).2) = -2147483648
              · rw [if_pos hmin] at h
                exact Option.noConfusion h
              · rw [if_neg hmin] at h
                rcases hmt : mutate_tree (sel pop s (k + 1)).1
                    (Int.tmod (toI32 (s (sel pop s (k + 1)).2)) w.tree_height)
                    mutf s ((sel pop s (k + 1)).2 + 1) fresh with _ | ⟨m, k3, f3⟩
                · rw [hmt] at h
                  exact Option.noConfusion h
                · rw [hmt] at h
                  have := ih _ _ _ _ _ _ h (by simp; omega)
                  simpa using this
          · rw [if_neg hr2] at h
            by_cases hp2 : pop.population.length < 2
            · rw [if_pos hp2] at h
              exact ih _ _ _ _ _ _ h hle
            · rw [if_neg hp2] at h
              rcases hct : crossover_tree (sel pop s (k + 1)).1
                  (sel pop s (sel pop s (k + 1)).2).1 s
                  (sel pop s (sel pop s (k + 1)).2).2 fresh
                  with _ | ⟨c1, c2, k3, f3⟩
              · rw [hct] at h
                exact Option.noConfusion h
              · rw [hct] at h
                have := ih _ _ _ _ _ _ h (by simp; omega)
                simpa using this
    · rw [if_neg hlt] at h
      obtain ⟨h1, h2, h3⟩ : out = ret ∧ k2 = k ∧ f2 = fresh := by
        refine ⟨?_, ?_, ?_⟩ <;> cases h <;> rfl
      subst h1
      refine ⟨by omega, hle, rfl, rfl⟩

/-- C4 amended: every terminating call of evolve returns a population whose
size lies in [S', S' + 1] for S' the size of ITS input population, never
smaller, at generation input + 1; under repeated application each generation
boundary therefore stays within one of the PREVIOUS generation's size — the
loop targets the current population's size, not the original one, so the size
can grow by one per generation (see the counterexample reaching S + 2 two
generations after starting at S). -/
theorem evolve_size_bound {F : Type} (pop : Pop RTree F) (w : Weights)
    (sel : Pop RTree F → (Nat → Nat) → Nat → RTree × Nat)
    (mutf : RTree → Int → RTree) (s : Nat → Nat)
    (fuel k fresh : Nat) (out : Pop RTree F) (k2 f2 : Nat)
    (h : evolve pop w sel mutf s fuel k fresh = some (out, k2, f2)) :
    pop.population.length ≤ out.population.length ∧
      out.population.length ≤ pop.population.length + 1 ∧
      out.generation = pop.generation + 1 := by
  obtain ⟨h1, h2, h3, _⟩ :=
    evolveGo_size pop w sel mutf s fuel k fresh ⟨[], pop.generation + 1, []⟩
      out k2 f2 h (by simp)
  exact ⟨h1, h2, h3⟩

/-- Selector oracle for the concrete evolve runs: pick the first member,
consume one draw. -/
def cxSel {F : Type} (pop : Pop RTree F) (_ : Nat → Nat) (k : Nat) :
    RTree × Nat :=
  (pop.population.headD (RTree.mk 99 0 []), k + 1)

/-- Mutation oracle for the concrete evolve runs: identity. -/
def cxMut (n : RTree) (_ : Int) : RTree := n

/-- Draw stream of the first concrete generation: reproduce, then
crossover. -/
def cxS1 : Nat → Nat := fun k => if k = 2 then 1 else 0

/-- Draw stream of the second concrete generation: reproduce, reproduce, then
crossover. -/
def cxS2 : Nat → Nat := fun k => if k = 4 then 1 else 0

/-- C4 counterexample: with weights reproduce 1, crossover 1, a population of
size S = 2 evolves (reproduce, then crossover adding BOTH offspring) to size
3 = S + 1, and evolving THAT population again (reproduce, reproduce,
crossover) yields size 4 > S + 1: repeated application does not keep the size
within [S, S + 1] of the original S at every generation boundary. -/
theorem evolve_repeated_exceeds_cx :
    ∃ (g1 g2 : Pop RTree Unit) (k1 f1 k2 f2 : Nat),
      evolve (⟨[RTree.mk 0 0 [], RTree.mk 1 0 []], 0, []⟩ : Pop RTree Unit)
          ⟨1, 0, 1, 5⟩ cxSel cxMut cxS1 10 0 100 = some (g1, k1, f1) ∧
      g1.population.length = 3 ∧
      evolve g1 ⟨1, 0, 1, 5⟩ cxSel cxMut cxS2 10 0 200 = some (g2, k2, f2) ∧
      g2.population.length = 4 ∧
      2 + 1 < 4 :=
  ⟨_, _, _, _, _, _, rfl, rfl, rfl, rfl, by decide⟩

/-- C4 witness: the size bound applied to the first concrete generation: a
terminating run over a population of size 2 at generation 0 stays within
[2, 3] at generation 1. -/
theorem evolve_size_bound_witness :
    evolve (⟨[RTree.mk 0 0 [], RTree.mk 1 0 []], 0, []⟩ : Pop RTree Unit)
        ⟨1, 0, 1, 5⟩ cxSel cxMut cxS1 10 0 100
      = some (⟨[RTree.mk 0 0 [], RTree.mk 100 0 [], RTree.mk 101 0 []], 1, []⟩,
          8, 102) ∧
    2 ≤ 3 ∧ (3 : Nat) ≤ 2 + 1 ∧ (1 : Nat) = 0 + 1 := by
  refine ⟨rfl, ?_⟩
  exact evolve_size_bound
    (⟨[RTree.mk 0 0 [], RTree.mk 1 0 []], 0, []⟩ : Pop RTree Unit)
    ⟨1, 0, 1, 5⟩ cxSel cxMut cxS1 10 0 100
    ⟨[RTree.mk 0 0 [], RTree.mk 100 0 [], RTree.mk 101 0 []], 1, []⟩ 8 102 rfl

end MLGP
